import Mathlib

/-
Verification development for the openclaw-air-trust core:
the tamper-evident audit ledger (src/audit-ledger.ts), the consent gate
(src/consent-gate.ts) and the risk classifier it uses.

The TypeScript classes are shallowly embedded as pure Lean functions over
explicit state values.  The cryptographic primitives from node crypto
(createHash sha256 hex digest, createHmac sha256 hex digest) are modelled
as an explicit parameter record of string functions, so every theorem is
stated for an arbitrary digest function; where a claim depends on
collision freeness it takes injectivity of the digest as a hypothesis.
JSON.stringify on the fixed content record is modelled field by field in
the declared key order, with the standard JS omission of undefined
optional fields; string escaping covers quote, backslash and the common
control characters, which is exact on every input appearing in the
claims.  File system effects (persistence, key loading) are modelled by
an explicit success flag where a claim depends on them.
-/

namespace AirTrust

/-- Risk levels, from src/types.ts (type RiskLevel). -/
inductive RiskLevel where
| critical
| high
| medium
| low
| none
deriving Repr, DecidableEq

/-- RISK_ORDER from src/types.ts: the numeric total order on risk levels. -/
def RISK_ORDER : RiskLevel → Nat
| RiskLevel.none => 0
| RiskLevel.low => 1
| RiskLevel.medium => 2
| RiskLevel.high => 3
| RiskLevel.critical => 4

/-- The JSON string value JSON.stringify produces for each risk level. -/
def riskLevelStr : RiskLevel → String
| RiskLevel.critical => "critical"
| RiskLevel.high => "high"
| RiskLevel.medium => "medium"
| RiskLevel.low => "low"
| RiskLevel.none => "none"

/-- JSON escaping of one character, per JSON.stringify: quote, backslash
and the common control characters get a two character escape, everything
else is kept verbatim. -/
def escChar (ch : Char) : List Char :=
  if ch = '"' then ['\\', '"']
  else if ch = '\\' then ['\\', '\\']
  else if ch = '\n' then ['\\', 'n']
  else if ch = '\r' then ['\\', 'r']
  else if ch = '\t' then ['\\', 't']
  else [ch]

/-- JSON escaping of a character list. -/
def escList : List Char → List Char
| [] => []
| ch :: rest => escChar ch ++ escList rest

/-- JSON escaping of a string. -/
def jsonEscape (s : String) : String := String.mk (escList s.data)

/-- A JSON string literal, with quotes. -/
def jsonStr (s : String) : String := "\"" ++ jsonEscape s ++ "\""

/-- JSON rendering of a boolean. -/
def jsonBool (b : Bool) : String := if b then "true" else "false"

/-- JSON rendering of the metadata record (keys in insertion order).
The source type is Record with unknown values; the model restricts
metadata values to strings, which the claims never inspect. -/
def jsonObj : List (String × String) → String
| [] => "\x7b\x7d"
| kv :: rest =>
  "\x7b" ++ jsonStr kv.1 ++ ":" ++ jsonStr kv.2 ++
    String.join (rest.map (fun kv2 => "," ++ jsonStr kv2.1 ++ ":" ++ jsonStr kv2.2)) ++ "\x7d"

/-- AuditEntry from src/types.ts. -/
structure AuditEntry where
  id : String
  sequence : Nat
  hash : String
  prevHash : String
  signature : String
  timestamp : String
  action : String
  toolName : Option String
  riskLevel : RiskLevel
  consentRequired : Bool
  consentGranted : Option Bool
  dataTokenized : Bool
  injectionDetected : Bool
  metadata : List (String × String)
deriving Repr, DecidableEq

/-- ChainVerification from src/types.ts; absent optional fields are none. -/
structure ChainVerification where
  valid : Bool
  totalEntries : Nat
  brokenAtSequence : Option Nat
  brokenAtId : Option String
  reason : Option String
deriving Repr, DecidableEq

/-- The cryptographic primitives the ledger uses, as abstract string
functions: sha256 models createHash sha256 update digest hex, and
hmacSha256 models createHmac sha256 with the given secret.  secret is the
hex key loaded in the constructor. -/
structure Crypto where
  sha256 : String → String
  hmacSha256 : String → String → String
  secret : String

/-- The part of AuditLedgerConfig the ledger algorithms read.  The
remaining fields (enabled, localPath, forwardToGateway) only drive I/O
wiring and are not modelled. -/
structure AuditLedgerConfig where
  maxEntries : Nat
deriving Repr, DecidableEq

/-- GENESIS_HASH from src/audit-ledger.ts line 22: sixty four zero
characters. -/
def GENESIS_HASH : String :=
  "0000000000000000000000000000000000000000000000000000000000000000"

/-- The mutable fields of class AuditLedger. -/
structure LedgerState where
  entries : List AuditEntry
  lastHash : String
  sequence : Nat
deriving Repr, DecidableEq

/-- A fresh ledger: no entries, genesis tip, sequence counter zero. -/
def initState : LedgerState :=
  { entries := [], lastHash := GENESIS_HASH, sequence := 0 }

/-- The caller supplied inputs of one append call.  id and timestamp are
produced by the environment (randomUUID, Date) and are modelled as
inputs. -/
structure AppendParams where
  id : String
  timestamp : String
  action : String
  toolName : Option String
  riskLevel : RiskLevel
  consentRequired : Bool
  consentGranted : Option Bool
  dataTokenized : Bool
  injectionDetected : Bool
  metadata : List (String × String)
deriving Repr, DecidableEq

/-- contentForHash from append and verify: JSON.stringify of the content
record, keys in the declared order, with undefined optional fields
omitted exactly as JSON.stringify omits them. -/
def contentForHash (e : AuditEntry) : String :=
  "\x7b\"id\":" ++ jsonStr e.id ++
  ",\"sequence\":" ++ toString e.sequence ++
  ",\"timestamp\":" ++ jsonStr e.timestamp ++
  ",\"action\":" ++ jsonStr e.action ++
  (match e.toolName with
   | some t => ",\"toolName\":" ++ jsonStr t
   | none => "") ++
  ",\"riskLevel\":" ++ jsonStr (riskLevelStr e.riskLevel) ++
  ",\"consentRequired\":" ++ jsonBool e.consentRequired ++
  (match e.consentGranted with
   | some b => ",\"consentGranted\":" ++ jsonBool b
   | none => "") ++
  ",\"dataTokenized\":" ++ jsonBool e.dataTokenized ++
  ",\"injectionDetected\":" ++ jsonBool e.injectionDetected ++
  ",\"metadata\":" ++ jsonObj e.metadata ++
  "\x7d"

/-- The HMAC payload string sequence, id, hash, prevHash joined by bars. -/
def sigPayloadStr (sequence : Nat) (id hash prevHash : String) : String :=
  toString sequence ++ "|" ++ id ++ "|" ++ hash ++ "|" ++ prevHash

/-- The HMAC payload of a finished entry. -/
def sigPayloadOf (e : AuditEntry) : String :=
  sigPayloadStr e.sequence e.id e.hash e.prevHash

/-- The recomputed content digest of an entry, as verify recomputes it. -/
def computeHash (c : Crypto) (e : AuditEntry) : String :=
  c.sha256 (contentForHash e)

/-- The recomputed signature of an entry, as verify recomputes it. -/
def computeSig (c : Crypto) (e : AuditEntry) : String :=
  c.hmacSha256 c.secret (sigPayloadOf e)

/-- The entry append builds from the current state and the call
parameters: sequence is the incremented counter, prevHash the running
tip, hash the digest of the serialized content, signature the keyed tag
over sequence, id, hash, prevHash. -/
def mkEntry (c : Crypto) (st : LedgerState) (p : AppendParams) : AuditEntry :=
  let seq := st.sequence + 1
  let e0 : AuditEntry :=
    { id := p.id, sequence := seq, hash := "", prevHash := st.lastHash,
      signature := "", timestamp := p.timestamp, action := p.action,
      toolName := p.toolName, riskLevel := p.riskLevel,
      consentRequired := p.consentRequired, consentGranted := p.consentGranted,
      dataTokenized := p.dataTokenized, injectionDetected := p.injectionDetected,
      metadata := p.metadata }
  let h := c.sha256 (contentForHash e0)
  { e0 with hash := h,
            signature := c.hmacSha256 c.secret (sigPayloadStr seq p.id h st.lastHash) }

/-- The retention trim in append: entries.slice(-maxEntries) applied when
maxEntries is positive and the entry count exceeds it; a JS slice with a
negative start keeps the last maxEntries elements. -/
def trimEntries (maxEntries : Nat) (l : List AuditEntry) : List AuditEntry :=
  if 0 < maxEntries ∧ maxEntries < l.length then l.drop (l.length - maxEntries) else l

/-- AuditLedger.append: build the entry, advance the tip and the counter,
push, trim.  Persistence success is handled by appendWithSave below. -/
def append (c : Crypto) (cfg : AuditLedgerConfig) (st : LedgerState)
    (p : AppendParams) : LedgerState × AuditEntry :=
  let e := mkEntry c st p
  ({ entries := trimEntries cfg.maxEntries (st.entries ++ [e]),
     lastHash := e.hash,
     sequence := st.sequence + 1 }, e)

/-- append with the saveChain persistence step made explicit: the state
is mutated first (push, tip, counter, trim) and then saveChain runs.
When the durable write throws, the exception propagates out of append
(result none, no entry returned) but the already mutated in memory state
is kept, exactly as in the source where this.entries, this.lastHash and
this.sequence are updated before saveChain is called. -/
def appendWithSave (c : Crypto) (cfg : AuditLedgerConfig) (st : LedgerState)
    (p : AppendParams) (saveOk : Bool) : LedgerState × Option AuditEntry :=
  let r := append c cfg st p
  if saveOk then (r.1, some r.2) else (r.1, none)

/-- Repeated append: final state plus the list of returned entries, in
call order. -/
def appendAll (c : Crypto) (cfg : AuditLedgerConfig) :
    LedgerState → List AppendParams → LedgerState × List AuditEntry
| st, [] => (st, [])
| st, p :: ps =>
  let r := append c cfg st p
  let rest := appendAll c cfg r.1 ps
  (rest.1, r.2 :: rest.2)

/-- The verification result of a chain that passed every check. -/
def okResult (total : Nat) : ChainVerification :=
  { valid := true, totalEntries := total, brokenAtSequence := none,
    brokenAtId := none, reason := none }

/-- The failure result verify reports at an entry. -/
def failResult (total : Nat) (e : AuditEntry) (msg : String) : ChainVerification :=
  { valid := false, totalEntries := total, brokenAtSequence := some e.sequence,
    brokenAtId := some e.id, reason := some msg }

/-- The prevHash mismatch reason string. -/
def linkageMsg (sequence : Nat) : String :=
  "prevHash mismatch at sequence " ++ toString sequence

/-- The content hash mismatch reason string. -/
def contentMsg (sequence : Nat) : String :=
  "Content hash mismatch at sequence " ++ toString sequence

/-- The signature mismatch reason string. -/
def signatureMsg (sequence : Nat) : String :=
  "Signature mismatch at sequence " ++ toString sequence

/-- The loop of AuditLedger.verify: walk the entries with the running
expected previous hash, checking linkage, then the content digest, then
the signature, stopping at the first failure. -/
def verifyLoop (c : Crypto) (total : Nat) : String → List AuditEntry → ChainVerification
| _, [] => okResult total
| expected, e :: rest =>
  if e.prevHash ≠ expected then failResult total e (linkageMsg e.sequence)
  else if e.hash ≠ computeHash c e then failResult total e (contentMsg e.sequence)
  else if e.signature ≠ computeSig c e then failResult total e (signatureMsg e.sequence)
  else verifyLoop c total e.hash rest

/-- AuditLedger.verify: empty chains are valid, otherwise walk from the
genesis sentinel. -/
def verify (c : Crypto) (st : LedgerState) : ChainVerification :=
  if st.entries.length = 0 then okResult 0
  else verifyLoop c st.entries.length GENESIS_HASH st.entries

/-- A JS arr.slice(-n) for a nonnegative n: negative zero is zero, so
n = 0 yields the whole array; for positive n the last min n len
elements are kept. -/
def jsSliceLast (l : List AuditEntry) (n : Nat) : List AuditEntry :=
  if n = 0 then l else l.drop (l.length - n)

/-- AuditLedger.getRecent: entries.slice(-n). -/
def getRecent (st : LedgerState) (n : Nat) : List AuditEntry :=
  jsSliceLast st.entries n

/-
Consent gate, from src/consent-gate.ts.
-/

/-- TOOL_RISK_MAP from src/consent-gate.ts, as an ordered association
list.  Object.entries on a string keyed record yields insertion order, so
the declared order of the table is the scan order of the substring match
loop. -/
def TOOL_RISK_MAP : List (String × RiskLevel) :=
  [("exec", RiskLevel.critical),
   ("spawn", RiskLevel.critical),
   ("shell", RiskLevel.critical),
   ("run_command", RiskLevel.critical),
   ("execute", RiskLevel.critical),
   ("fs_write", RiskLevel.high),
   ("fs_delete", RiskLevel.high),
   ("file_write", RiskLevel.high),
   ("file_delete", RiskLevel.high),
   ("apply_patch", RiskLevel.high),
   ("rm", RiskLevel.high),
   ("rmdir", RiskLevel.high),
   ("git_push", RiskLevel.high),
   ("deploy", RiskLevel.high),
   ("send_email", RiskLevel.medium),
   ("email_send", RiskLevel.medium),
   ("sessions_send", RiskLevel.medium),
   ("slack_send", RiskLevel.medium),
   ("http_request", RiskLevel.medium),
   ("api_call", RiskLevel.medium),
   ("fs_read", RiskLevel.low),
   ("file_read", RiskLevel.low),
   ("search", RiskLevel.low),
   ("query", RiskLevel.low)]

/-- Whether the second list is an initial segment of the first. -/
def charsHasPref : List Char → List Char → Bool
| _, [] => true
| [], _ :: _ => false
| a :: as, b :: bs => a == b && charsHasPref as bs

/-- Whether the second list occurs contiguously inside the first;
models JS String.prototype.includes on the underlying characters. -/
def charsIncludes : List Char → List Char → Bool
| [], p => p.isEmpty
| a :: rest, p => charsHasPref (a :: rest) p || charsIncludes rest p

/-- JS s.includes(pat). -/
def strIncludes (s pat : String) : Bool := charsIncludes s.data pat.data

/-- JS toLowerCase, character by character (the table keys and tool
names are ASCII, where Char.toLower agrees with JS). -/
def lowerStr (s : String) : String := String.mk (s.data.map Char.toLower)

/-- ConsentGate.classifyRisk: exact lookup in TOOL_RISK_MAP first, then
the first table entry in declared order whose key is a substring of the
lowercased name, else low. -/
def classifyRisk (toolName : String) : RiskLevel :=
  match TOOL_RISK_MAP.find? (fun kv => kv.1 == toolName) with
  | some kv => kv.2
  | none =>
    let lower := lowerStr toolName
    match TOOL_RISK_MAP.find? (fun kv => strIncludes lower kv.1) with
    | some kv => kv.2
    | none => RiskLevel.low

/-- The part of ConsentGateConfig that requiresConsent reads (enabled and
timeoutMs drive wiring and the timer and are modelled elsewhere). -/
structure ConsentGateConfig where
  alwaysRequire : List String
  neverRequire : List String
  riskThreshold : RiskLevel
deriving Repr, DecidableEq

/-- ConsentGate.requiresConsent: never require list first, then always
require list, then the risk threshold comparison. -/
def requiresConsent (cfg : ConsentGateConfig) (toolName : String) : Bool :=
  if cfg.neverRequire.contains toolName then false
  else if cfg.alwaysRequire.contains toolName then true
  else decide (RISK_ORDER cfg.riskThreshold ≤ RISK_ORDER (classifyRisk toolName))

/-
The consent request race, from ConsentGate.waitForApproval,
ConsentGate.handleResponse and the tail of ConsentGate.intercept.
The JS event loop runs each of the two competing callbacks atomically;
the model therefore gives each callback one atomic step on the shared
request state.
-/

/-- The status values of a ConsentRequest. -/
inductive CStatus where
| pending
| approved
| rejected
| timeout
deriving Repr, DecidableEq

/-- The status string JSON and the audit action use. -/
def statusName : CStatus → String
| CStatus.pending => "pending"
| CStatus.approved => "approved"
| CStatus.rejected => "rejected"
| CStatus.timeout => "timeout"

/-- The shared per request state the two racing callbacks touch:
inTable is membership of the request id in the pendingRequests map,
status is the mutable status field of the request, and resolved is the
one shot promise value the suspended intercept awaits (none while
unresolved). -/
structure ReqRace where
  inTable : Bool
  status : CStatus
  resolved : Option Bool
deriving Repr, DecidableEq

/-- The state right after waitForApproval registered the request and
armed the timer. -/
def initReq : ReqRace :=
  { inTable := true, status := CStatus.pending, resolved := none }

/-- ConsentGate.handleResponse for this request id: look the id up in
the pending map; if absent return false; otherwise fulfil the promise
with the approval boolean, remove the id, and return true. -/
def handleResponseR (s : ReqRace) (approved : Bool) : ReqRace × Bool :=
  if s.inTable then
    ({ s with inTable := false, resolved := some approved }, true)
  else (s, false)

/-- The timer callback in waitForApproval: if the id is still pending,
set the status to timeout, remove the id, and fulfil the promise with
false.  The returned boolean is model instrumentation reporting whether
the callback body ran (the source callback returns nothing). -/
def timeoutFireR (s : ReqRace) : ReqRace × Bool :=
  if s.inTable then
    ({ inTable := false, status := CStatus.timeout, resolved := some false }, true)
  else (s, false)

/-- The continuation of intercept after the awaited promise resolves:
it runs exactly when the promise was fulfilled, computes the terminal
status (a timeout set by the timer is kept, otherwise approved or
rejected by the resolution value) and appends one decision record whose
action is consent_ followed by the status and whose consentGranted is
the resolution value. -/
def interceptFinish (s : ReqRace) : Option (String × Bool) :=
  match s.resolved with
  | none => none
  | some approved =>
    let status :=
      if s.status = CStatus.timeout then CStatus.timeout
      else if approved then CStatus.approved else CStatus.rejected
    some ("consent_" ++ statusName status, approved)

/-
Specification layer: predicates and helpers the theorems use.
-/

/-- The entry stores the digest of its own serialized content. -/
def entryHashOk (c : Crypto) (e : AuditEntry) : Bool :=
  e.hash == computeHash c e

/-- The entry stores the keyed tag over sequence, id, hash, prevHash. -/
def entrySigOk (c : Crypto) (e : AuditEntry) : Bool :=
  e.signature == computeSig c e

/-- Every entry passes the three checks of verify, walking from the
given expected previous hash. -/
def chainOkFrom (c : Crypto) : String → List AuditEntry → Bool
| _, [] => true
| prev, e :: rest =>
  (e.prevHash == prev) && entryHashOk c e && entrySigOk c e && chainOkFrom c e.hash rest

/-- The running tip after walking the entries from the given previous
hash: the hash of the last entry, or the start value if none. -/
def tipFrom : String → List AuditEntry → String
| prev, [] => prev
| _, e :: rest => tipFrom e.hash rest

/-- The invariant append maintains: the retained entries verify from the
genesis sentinel and the stored tip is the hash of the last entry. -/
def ledgerInv (c : Crypto) (st : LedgerState) : Prop :=
  chainOkFrom c GENESIS_HASH st.entries = true ∧
  tipFrom GENESIS_HASH st.entries = st.lastHash

/-- Replace the element at one position. -/
def modifyAt : List AuditEntry → Nat → (AuditEntry → AuditEntry) → List AuditEntry
| [], _, _ => []
| e :: rest, 0, f => f e :: rest
| e :: rest, n+1, f => e :: modifyAt rest n f

/-- Overwrite the semantic action field of a stored entry. -/
def setAction (a : String) (e : AuditEntry) : AuditEntry := { e with action := a }

/-- Overwrite the prevHash field of a stored entry. -/
def setPrev (p : String) (e : AuditEntry) : AuditEntry := { e with prevHash := p }

/-- Tamper with the retained entry at one position of a ledger. -/
def tamperAt (st : LedgerState) (i : Nat) (f : AuditEntry → AuditEntry) : LedgerState :=
  { st with entries := modifyAt st.entries i f }

/-- Decode the first character of a JSON escaped stream: a backslash
followed by one of the five escape letters decodes to the escaped
character, anything else decodes to itself. -/
def decHead (l : List Char) : Option Char :=
  match l with
  | [] => none
  | a :: rest =>
    if a = '\\' then
      match rest with
      | [] => some a
      | b :: _ =>
        if b = '"' then some '"'
        else if b = '\\' then some '\\'
        else if b = 'n' then some '\n'
        else if b = 'r' then some '\r'
        else if b = 't' then some '\t'
        else some a
    else some a

/-- The character length of a hex encoded SHA-256 digest (32 bytes, two
hex characters each).  Modelled from the spec: node createHash sha256
digest hex always yields 64 characters, as the repository test
audit-ledger.test.ts asserts for entry hashes and signatures. -/
def sha256HexLength : Nat := 64

/-
Concrete fixtures used by witnesses and counterexamples.
-/

/-- A small executable digest assignment: digests record the input
length.  Used where only concrete evaluation matters. -/
def cShort : Crypto :=
  { sha256 := fun s => "h" ++ toString s.length,
    hmacSha256 := fun k p => "m" ++ k ++ toString p.length,
    secret := "sec" }

/-- An injective executable digest assignment: digests keep the whole
input, marked by a leading h (respectively m). -/
def cInj : Crypto :=
  { sha256 := fun s => "h" ++ s,
    hmacSha256 := fun k p => "m" ++ k ++ "|" ++ p,
    secret := "key" }

/-- Concrete append inputs for one action name. -/
def pfix (a : String) : AppendParams :=
  { id := "id-" ++ a, timestamp := "t0", action := a, toolName := none,
    riskLevel := RiskLevel.low, consentRequired := false, consentGranted := none,
    dataTokenized := false, injectionDetected := false, metadata := [] }

/-- Three concrete append inputs. -/
def psEx3 : List AppendParams := [pfix "a1", pfix "a2", pfix "a3"]

/-- A two entry ledger built with the injective digests. -/
def stInj2 : LedgerState := (appendAll cInj ⟨0⟩ initState [pfix "t1", pfix "t2"]).1

/-- A configuration putting one name on both lists. -/
def cfgTie : ConsentGateConfig :=
  { alwaysRequire := ["mytool"], neverRequire := ["mytool"],
    riskThreshold := RiskLevel.low }

/-
Chain walking lemmas.
-/

theorem tipFrom_append (xs ys : List AuditEntry) : ∀ prev,
    tipFrom prev (xs ++ ys) = tipFrom (tipFrom prev xs) ys := by
  induction xs with
  | nil => intro prev; rfl
  | cons e rest ih => intro prev; simp [tipFrom, ih]

theorem chainOk_cons_iff (c : Crypto) (prev : String) (e : AuditEntry)
    (rest : List AuditEntry) :
    chainOkFrom c prev (e :: rest) = true ↔
      e.prevHash = prev ∧ e.hash = computeHash c e ∧ e.signature = computeSig c e ∧
        chainOkFrom c e.hash rest = true := by
  simp [chainOkFrom, entryHashOk, entrySigOk, Bool.and_eq_true, beq_iff_eq, and_assoc]

theorem chainOk_append_one (c : Crypto) (xs : List AuditEntry) (e : AuditEntry) :
    ∀ prev, chainOkFrom c prev (xs ++ [e]) = true ↔
      (chainOkFrom c prev xs = true ∧ e.prevHash = tipFrom prev xs ∧
        e.hash = computeHash c e ∧ e.signature = computeSig c e) := by
  induction xs with
  | nil =>
    intro prev
    simp [chainOk_cons_iff, chainOkFrom, tipFrom, entryHashOk, entrySigOk,
      beq_iff_eq, and_assoc]
  | cons f rest ih =>
    intro prev
    simp only [List.cons_append, chainOk_cons_iff, ih, tipFrom]
    tauto

theorem verifyLoop_cons_ok (c : Crypto) (total : Nat) (prev : String)
    (e : AuditEntry) (rest : List AuditEntry)
    (h1 : e.prevHash = prev) (h2 : e.hash = computeHash c e)
    (h3 : e.signature = computeSig c e) :
    verifyLoop c total prev (e :: rest) = verifyLoop c total e.hash rest := by
  simp [verifyLoop, h1, h2, h3]

theorem verifyLoop_skip (c : Crypto) (total : Nat) (xs : List AuditEntry) :
    ∀ prev, chainOkFrom c prev xs = true →
    ∀ ys, verifyLoop c total prev (xs ++ ys) = verifyLoop c total (tipFrom prev xs) ys := by
  induction xs with
  | nil => intro prev _ ys; rfl
  | cons e rest ih =>
    intro prev h ys
    rcases (chainOk_cons_iff c prev e rest).1 h with ⟨h1, h2, h3, h4⟩
    rw [List.cons_append, verifyLoop_cons_ok c total prev e (rest ++ ys) h1 h2 h3]
    simpa [tipFrom] using ih e.hash h4 ys

theorem verifyLoop_ok (c : Crypto) (total : Nat) (xs : List AuditEntry)
    (prev : String) (h : chainOkFrom c prev xs = true) :
    verifyLoop c total prev xs = okResult total := by
  have := verifyLoop_skip c total xs prev h []
  simpa [verifyLoop] using this

/-
Append lemmas.
-/

theorem mkEntry_hashOk (c : Crypto) (st : LedgerState) (p : AppendParams) :
    (mkEntry c st p).hash = computeHash c (mkEntry c st p) := by
  rfl

theorem mkEntry_sigOk (c : Crypto) (st : LedgerState) (p : AppendParams) :
    (mkEntry c st p).signature = computeSig c (mkEntry c st p) := by
  rfl

theorem append_cfg0_entries (c : Crypto) (st : LedgerState) (p : AppendParams) :
    (append c ⟨0⟩ st p).1.entries = st.entries ++ [(append c ⟨0⟩ st p).2] := by
  simp [append, trimEntries]

theorem ledgerInv_append (c : Crypto) (st : LedgerState) (p : AppendParams)
    (h : ledgerInv c st) : ledgerInv c (append c ⟨0⟩ st p).1 := by
  obtain ⟨hOk, hTip⟩ := h
  constructor
  · rw [append_cfg0_entries]
    refine (chainOk_append_one c st.entries _ GENESIS_HASH).2 ⟨hOk, ?_, ?_, ?_⟩
    · show (mkEntry c st p).prevHash = _
      rw [hTip]; rfl
    · exact mkEntry_hashOk c st p
    · exact mkEntry_sigOk c st p
  · rw [append_cfg0_entries, tipFrom_append]
    rfl

theorem ledgerInv_appendAll (c : Crypto) (ps : List AppendParams) :
    ∀ st, ledgerInv c st → ledgerInv c (appendAll c ⟨0⟩ st ps).1 := by
  induction ps with
  | nil => intro st h; exact h
  | cons p rest ih =>
    intro st h
    exact ih _ (ledgerInv_append c st p h)

theorem appendAll_cfg0_entries (c : Crypto) (ps : List AppendParams) :
    ∀ st, (appendAll c ⟨0⟩ st ps).1.entries = st.entries ++ (appendAll c ⟨0⟩ st ps).2 := by
  induction ps with
  | nil => intro st; simp [appendAll]
  | cons p rest ih =>
    intro st
    simp only [appendAll]
    rw [ih, append_cfg0_entries]
    simp

theorem appendAll_count (c : Crypto) (cfg : AuditLedgerConfig) (ps : List AppendParams) :
    ∀ st, (appendAll c cfg st ps).2.length = ps.length := by
  induction ps with
  | nil => intro st; rfl
  | cons p rest ih => intro st; simp [appendAll, ih]

theorem appendAll_sequence (c : Crypto) (cfg : AuditLedgerConfig) (ps : List AppendParams) :
    ∀ st, (appendAll c cfg st ps).1.sequence = st.sequence + ps.length := by
  induction ps with
  | nil => intro st; simp [appendAll]
  | cons p rest ih =>
    intro st
    simp only [appendAll]
    rw [ih]
    simp [append]
    omega

theorem appendAll_seqs (c : Crypto) (cfg : AuditLedgerConfig) (ps : List AppendParams) :
    ∀ st, (appendAll c cfg st ps).2.map (fun e => e.sequence) =
      List.range' (st.sequence + 1) ps.length := by
  induction ps with
  | nil => intro st; rfl
  | cons p rest ih =>
    intro st
    simp only [appendAll, List.map_cons]
    rw [ih]
    simp [append, mkEntry, List.range']

theorem trimEntries_noop (K : Nat) (l : List AuditEntry)
    (h : ¬ (0 < K ∧ K < l.length)) : trimEntries K l = l := by
  unfold trimEntries
  rw [if_neg h]

theorem append_under_cap (c : Crypto) (K : Nat) (st : LedgerState) (p : AppendParams)
    (h : K = 0 ∨ st.entries.length + 1 ≤ K) :
    append c ⟨K⟩ st p = append c ⟨0⟩ st p := by
  rcases h with h | h
  · subst h; rfl
  · have hK : ¬ (0 < K ∧ K < (st.entries ++ [mkEntry c st p]).length) := by
      simp only [List.length_append, List.length_cons, List.length_nil, not_and, not_lt]
      omega
    simp only [append, trimEntries_noop K _ hK, trimEntries_noop 0 _ (by simp)]

theorem appendAll_under_cap (c : Crypto) (K : Nat) (ps : List AppendParams) :
    ∀ st, (K = 0 ∨ st.entries.length + ps.length ≤ K) →
    appendAll c ⟨K⟩ st ps = appendAll c ⟨0⟩ st ps := by
  induction ps with
  | nil => intro st _; rfl
  | cons p rest ih =>
    intro st h
    have h1 : K = 0 ∨ st.entries.length + 1 ≤ K := by
      rcases h with h | h
      · exact Or.inl h
      · right; simp only [List.length_cons] at h; omega
    simp only [appendAll]
    rw [append_under_cap c K st p h1]
    have h2 : K = 0 ∨ (append c ⟨0⟩ st p).1.entries.length + rest.length ≤ K := by
      rcases h with h | h
      · exact Or.inl h
      · right
        rw [append_cfg0_entries]
        simp only [List.length_append, List.length_cons, List.length_nil] at *
        omega
    rw [ih (append c ⟨0⟩ st p).1 h2]

/-
Retention trimming correspondence with the untrimmed run.
-/

theorem mkEntry_congr (c : Crypto) (stT stF : LedgerState) (p : AppendParams)
    (h1 : stT.lastHash = stF.lastHash) (h2 : stT.sequence = stF.sequence) :
    mkEntry c stT p = mkEntry c stF p := by
  unfold mkEntry
  rw [h1, h2]

theorem trim_step (K : Nat) (l : List AuditEntry) (e : AuditEntry) :
    trimEntries K (trimEntries K l ++ [e]) = trimEntries K (l ++ [e]) := by
  by_cases hK : 0 < K
  · by_cases h1 : K < l.length
    · have hinner : trimEntries K l = l.drop (l.length - K) := by
        unfold trimEntries
        rw [if_pos ⟨hK, h1⟩]
      have hlen : (l.drop (l.length - K)).length = K := by
        simp [List.length_drop]
        omega
      have houter : K < (l.drop (l.length - K) ++ [e]).length := by
        simp [List.length_append, hlen]
      have hrlen : K < (l ++ [e]).length := by
        simp [List.length_append]
        omega
      rw [hinner]
      unfold trimEntries
      rw [if_pos ⟨hK, houter⟩, if_pos ⟨hK, hrlen⟩]
      simp only [List.length_append, hlen, List.length_cons, List.length_nil]
      have hd1 : K + 1 - K = 1 := by omega
      have hd2 : 1 ≤ (l.drop (l.length - K)).length := by omega
      rw [hd1, List.drop_append_of_le_length hd2, List.drop_drop]
      have hd3 : l.length + 1 - K ≤ l.length := by omega
      rw [List.drop_append_of_le_length hd3]
      have hd4 : l.length - K + 1 = l.length + 1 - K := by omega
      rw [hd4]
    · have hinner : trimEntries K l = l := trimEntries_noop K l (by tauto)
      rw [hinner]
  · have h0 : ∀ m : List AuditEntry, trimEntries K m = m := fun m =>
      trimEntries_noop K m (by tauto)
    rw [h0, h0, h0]

theorem appendAll_trim_rel (c : Crypto) (K : Nat) (ps : List AppendParams) :
    ∀ stF stT : LedgerState,
      stT.lastHash = stF.lastHash → stT.sequence = stF.sequence →
      stT.entries = trimEntries K stF.entries →
      (appendAll c ⟨K⟩ stT ps).1.lastHash = (appendAll c ⟨0⟩ stF ps).1.lastHash ∧
      (appendAll c ⟨K⟩ stT ps).1.sequence = (appendAll c ⟨0⟩ stF ps).1.sequence ∧
      (appendAll c ⟨K⟩ stT ps).1.entries = trimEntries K (appendAll c ⟨0⟩ stF ps).1.entries ∧
      (appendAll c ⟨K⟩ stT ps).2 = (appendAll c ⟨0⟩ stF ps).2 := by
  induction ps with
  | nil =>
    intro stF stT h1 h2 h3
    exact ⟨h1, h2, h3, rfl⟩
  | cons p rest ih =>
    intro stF stT h1 h2 h3
    have he : mkEntry c stT p = mkEntry c stF p := mkEntry_congr c stT stF p h1 h2
    have hT : (append c ⟨K⟩ stT p).1 =
        { entries := trimEntries K (stF.entries ++ [mkEntry c stF p]),
          lastHash := (mkEntry c stF p).hash,
          sequence := stF.sequence + 1 } := by
      simp only [append, he, h2, h3]
      rw [trim_step]
    have hF : (append c ⟨0⟩ stF p).1 =
        { entries := stF.entries ++ [mkEntry c stF p],
          lastHash := (mkEntry c stF p).hash,
          sequence := stF.sequence + 1 } := by
      simp only [append, trimEntries_noop 0 _ (by simp)]
    have hrec := ih (append c ⟨0⟩ stF p).1 (append c ⟨K⟩ stT p).1
      (by rw [hT, hF]) (by rw [hT, hF]) (by rw [hT, hF])
    have h2nd : (append c ⟨K⟩ stT p).2 = (append c ⟨0⟩ stF p).2 := by
      simp only [append, he]
    simp only [appendAll]
    exact ⟨hrec.1, hrec.2.1, hrec.2.2.1, by rw [h2nd, hrec.2.2.2]⟩

/-
JSON escape injectivity.
-/

theorem escChar_ne_nil (ch : Char) : escChar ch ≠ [] := by
  unfold escChar
  split_ifs <;> simp

theorem decHead_escChar (ch : Char) (rest : List Char) :
    decHead (escChar ch ++ rest) = some ch := by
  unfold escChar
  split_ifs with h1 h2 h3 h4 h5
  · subst h1; rfl
  · subst h2; rfl
  · subst h3; rfl
  · subst h4; rfl
  · subst h5; rfl
  · show decHead (ch :: rest) = some ch
    simp only [decHead]
    rw [if_neg h2]

theorem escList_inj : ∀ l1 l2 : List Char, escList l1 = escList l2 → l1 = l2 := by
  intro l1
  induction l1 with
  | nil =>
    intro l2 h
    cases l2 with
    | nil => rfl
    | cons b bs =>
      exfalso
      simp only [escList] at h
      have := List.append_eq_nil.1 h.symm
      exact escChar_ne_nil b this.1
  | cons a as ih =>
    intro l2 h
    cases l2 with
    | nil =>
      exfalso
      simp only [escList] at h
      have := List.append_eq_nil.1 h
      exact escChar_ne_nil a this.1
    | cons b bs =>
      simp only [escList] at h
      have hd : some a = some b := by
        rw [← decHead_escChar a (escList as), ← decHead_escChar b (escList bs), h]
      have hab : a = b := Option.some.inj hd
      subst hab
      have ht : escList as = escList bs := List.append_cancel_left h
      rw [ih bs ht]

theorem string_data_inj (s1 s2 : String) (h : s1.data = s2.data) : s1 = s2 := by
  cases s1
  cases s2
  exact congrArg String.mk h

theorem jsonStr_inj (a1 a2 : String) (h : jsonStr a1 = jsonStr a2) : a1 = a2 := by
  unfold jsonStr jsonEscape at h
  have hd := congrArg String.data h
  simp only [String.data_append, List.append_assoc] at hd
  have h2 : escList a1.data = escList a2.data := by
    have := List.append_cancel_left hd
    exact List.append_cancel_right this
  exact string_data_inj a1 a2 (escList_inj _ _ h2)

theorem contentForHash_action_inj (e : AuditEntry) (a1 a2 : String)
    (h : contentForHash { e with action := a1 } = contentForHash { e with action := a2 }) :
    a1 = a2 := by
  unfold contentForHash at h
  have hd := congrArg String.data h
  simp only [String.data_append, List.append_assoc] at hd
  have h1 := List.append_cancel_left hd
  have h2 := List.append_cancel_left h1
  have h3 := List.append_cancel_left h2
  have h4 := List.append_cancel_left h3
  have h5 := List.append_cancel_left h4
  have h6 := List.append_cancel_left h5
  have h7 := List.append_cancel_left h6
  have h8 : (jsonStr a1).data = (jsonStr a2).data := List.append_cancel_right h7
  exact jsonStr_inj a1 a2 (string_data_inj _ _ h8)

/-
Tampering lemmas: verify pinpoints the first failing entry.
-/

theorem modifyAt_length (f : AuditEntry → AuditEntry) :
    ∀ (xs : List AuditEntry) (i : Nat), (modifyAt xs i f).length = xs.length := by
  intro xs
  induction xs with
  | nil => intro i; rfl
  | cons e rest ih =>
    intro i
    cases i with
    | zero => rfl
    | succ n => simp [modifyAt, ih]

theorem setAction_fields (a : String) (e : AuditEntry) :
    (setAction a e).prevHash = e.prevHash ∧ (setAction a e).hash = e.hash ∧
    (setAction a e).sequence = e.sequence ∧ (setAction a e).id = e.id := by
  exact ⟨rfl, rfl, rfl, rfl⟩

theorem verifyLoop_tamper_action (c : Crypto) (hinj : Function.Injective c.sha256)
    (a : String) (xs : List AuditEntry) :
    ∀ (i : Nat) (prev : String) (total : Nat),
      chainOkFrom c prev xs = true → ∀ hi : i < xs.length,
      a ≠ (xs.get ⟨i, hi⟩).action →
      verifyLoop c total prev (modifyAt xs i (setAction a)) =
        failResult total (xs.get ⟨i, hi⟩) (contentMsg (xs.get ⟨i, hi⟩).sequence) := by
  induction xs with
  | nil =>
    intro i prev total hOk hi hne
    exact absurd hi (by simp)
  | cons e rest ih =>
    intro i prev total hOk hi hne
    rcases (chainOk_cons_iff c prev e rest).1 hOk with ⟨h1, h2, h3, h4⟩
    cases i with
    | zero =>
      have hhne : ¬ ((setAction a e).hash = computeHash c (setAction a e)) := by
        intro hEq
        apply hne
        have hstep : c.sha256 (contentForHash { e with action := a }) =
            c.sha256 (contentForHash e) := by
          have hl : (setAction a e).hash = e.hash := rfl
          have hr : computeHash c (setAction a e) =
              c.sha256 (contentForHash { e with action := a }) := rfl
          rw [hl, hr] at hEq
          rw [← hEq, h2]
          rfl
        have hcf := hinj hstep
        simpa [List.get] using contentForHash_action_inj e a e.action hcf
      have hpv : ¬ ((setAction a e).prevHash ≠ prev) := by
        simp [setAction, h1]
      show verifyLoop c total prev (setAction a e :: rest) = _
      simp only [verifyLoop, if_neg hpv, if_pos hhne]
      simp [failResult, setAction, List.get]
    | succ n =>
      have hi2 : n < rest.length := by simpa using hi
      have hne2 : a ≠ (rest.get ⟨n, hi2⟩).action := by simpa [List.get] using hne
      show verifyLoop c total prev (e :: modifyAt rest n (setAction a)) = _
      rw [verifyLoop_cons_ok c total prev e _ h1 h2 h3]
      simpa [List.get] using ih n e.hash total h4 hi2 hne2

theorem verifyLoop_tamper_prev (c : Crypto)
    (pv : String) (xs : List AuditEntry) :
    ∀ (i : Nat) (prev : String) (total : Nat),
      chainOkFrom c prev xs = true → ∀ hi : i < xs.length,
      pv ≠ (xs.get ⟨i, hi⟩).prevHash →
      verifyLoop c total prev (modifyAt xs i (setPrev pv)) =
        failResult total (xs.get ⟨i, hi⟩) (linkageMsg (xs.get ⟨i, hi⟩).sequence) := by
  induction xs with
  | nil =>
    intro i prev total hOk hi hne
    exact absurd hi (by simp)
  | cons e rest ih =>
    intro i prev total hOk hi hne
    rcases (chainOk_cons_iff c prev e rest).1 hOk with ⟨h1, h2, h3, h4⟩
    cases i with
    | zero =>
      have hpv : (setPrev pv e).prevHash ≠ prev := by
        simp only [setPrev]
        simpa [List.get, h1] using hne
      show verifyLoop c total prev (setPrev pv e :: rest) = _
      simp only [verifyLoop, if_pos hpv]
      simp [failResult, setPrev, List.get]
    | succ n =>
      have hi2 : n < rest.length := by simpa using hi
      have hne2 : pv ≠ (rest.get ⟨n, hi2⟩).prevHash := by simpa [List.get] using hne
      show verifyLoop c total prev (e :: modifyAt rest n (setPrev pv)) = _
      rw [verifyLoop_cons_ok c total prev e _ h1 h2 h3]
      simpa [List.get] using ih n e.hash total h4 hi2 hne2

theorem verify_eq_loop (c : Crypto) (st : LedgerState)
    (h : st.entries.length ≠ 0) :
    verify c st = verifyLoop c st.entries.length GENESIS_HASH st.entries := by
  simp [verify, h]

/-
Claim theorems.
-/

set_option maxRecDepth 8000

/-- C1 counterexample: with maxEntries 2, three untampered appends from a
fresh ledger leave a chain that verify reports as invalid (the oldest
retained entry no longer links to the genesis sentinel) with totalEntries
2, not 3 — refuting the claim for runs where trimming occurred. -/
theorem C1_counterexample :
    ¬ ((verify cShort (appendAll cShort ⟨2⟩ initState psEx3).1).valid = true ∧
       (verify cShort (appendAll cShort ⟨2⟩ initState psEx3).1).totalEntries = psEx3.length) := by
  decide

/-- C1 (amended): for every fresh ledger and every sequence of N append
calls with no tampering, provided retention trimming did not occur
(maxEntries is zero, meaning unlimited, or N does not exceed maxEntries),
verify returns valid with totalEntries = N, including N = 0. -/
theorem C1_verify_valid (c : Crypto) (K : Nat) (ps : List AppendParams)
    (h : K = 0 ∨ ps.length ≤ K) :
    verify c (appendAll c ⟨K⟩ initState ps).1 = okResult ps.length := by
  rw [appendAll_under_cap c K ps initState (by simpa [initState] using h)]
  have hInv := ledgerInv_appendAll c ps initState ⟨rfl, rfl⟩
  have hEnt : (appendAll c ⟨0⟩ initState ps).1.entries = (appendAll c ⟨0⟩ initState ps).2 := by
    simpa [initState] using appendAll_cfg0_entries c ps initState
  have hLen : (appendAll c ⟨0⟩ initState ps).1.entries.length = ps.length := by
    rw [hEnt]
    exact appendAll_count c ⟨0⟩ ps initState
  by_cases h0 : (appendAll c ⟨0⟩ initState ps).1.entries.length = 0
  · have hN : ps.length = 0 := by rw [← hLen]; exact h0
    rw [hN]
    simp [verify, h0]
  · rw [verify_eq_loop c _ h0, verifyLoop_ok c _ _ _ hInv.1, hLen]

/-- C1 witness: three appends with no cap verify as valid with
totalEntries three. -/
theorem C1_witness :
    verify cShort (appendAll cShort ⟨0⟩ initState psEx3).1 = okResult psEx3.length :=
  C1_verify_valid cShort 0 psEx3 (Or.inl rfl)

/-- C2: on a ledger whose retained entries all pass the three checks of
verify, overwriting the semantic action field of the entry at any
position (with the digest injective and the new action different) makes
verify report invalid with the content mismatch reason at exactly that
entry, carrying its sequence and id and the full retained count; and
overwriting prevHash at any position (new value different) makes verify
report the linkage broken reason at that entry, even though its
signature check would also fail. -/
theorem C2_tamper_report (c : Crypto) (hinj : Function.Injective c.sha256)
    (st : LedgerState) (hOk : chainOkFrom c GENESIS_HASH st.entries = true)
    (i : Nat) (hi : i < st.entries.length) :
    (∀ a, a ≠ (st.entries.get ⟨i, hi⟩).action →
      verify c (tamperAt st i (setAction a)) =
        failResult st.entries.length (st.entries.get ⟨i, hi⟩)
          (contentMsg (st.entries.get ⟨i, hi⟩).sequence)) ∧
    (∀ pv, pv ≠ (st.entries.get ⟨i, hi⟩).prevHash →
      verify c (tamperAt st i (setPrev pv)) =
        failResult st.entries.length (st.entries.get ⟨i, hi⟩)
          (linkageMsg (st.entries.get ⟨i, hi⟩).sequence)) := by
  constructor
  · intro a ha
    have hLen : (tamperAt st i (setAction a)).entries.length = st.entries.length := by
      simp [tamperAt, modifyAt_length]
    rw [verify_eq_loop c _ (by rw [hLen]; omega), hLen]
    exact verifyLoop_tamper_action c hinj a st.entries i GENESIS_HASH
      st.entries.length hOk hi ha
  · intro pv hpv
    have hLen : (tamperAt st i (setPrev pv)).entries.length = st.entries.length := by
      simp [tamperAt, modifyAt_length]
    rw [verify_eq_loop c _ (by rw [hLen]; omega), hLen]
    exact verifyLoop_tamper_prev c pv st.entries i GENESIS_HASH
      st.entries.length hOk hi hpv

/-- Injectivity of the concrete digest fixture. -/
theorem cInj_sha256_inj : Function.Injective cInj.sha256 := by
  intro a b h
  have hd := congrArg String.data h
  simp only [cInj, String.data_append] at hd
  exact string_data_inj a b (List.append_cancel_left hd)

/-- C2 witness: on a concrete two entry chain, tampering the second
action yields the content mismatch report at sequence 2, and tampering
its prevHash yields the linkage report at sequence 2. -/
theorem C2_witness :
    (verify cInj (tamperAt stInj2 1 (setAction "tampered"))).valid = false ∧
    (verify cInj (tamperAt stInj2 1 (setAction "tampered"))).reason = some (contentMsg 2) ∧
    (verify cInj (tamperAt stInj2 1 (setPrev "beef"))).reason = some (linkageMsg 2) := by
  have hOk : chainOkFrom cInj GENESIS_HASH stInj2.entries = true :=
    (ledgerInv_appendAll cInj [pfix "t1", pfix "t2"] initState ⟨rfl, rfl⟩).1
  have h := C2_tamper_report cInj cInj_sha256_inj stInj2 hOk 1 (by decide)
  have h1 := h.1 "tampered" (by decide)
  have h2 := h.2 "beef" (by decide)
  refine ⟨?_, ?_, ?_⟩
  · rw [h1]; rfl
  · rw [h1]; decide
  · rw [h2]; decide


/-- C3: for either interleaving of an explicit response and the timeout
timer on one pending consent request, the first to observe the pending
registration claims it (returns or reports acting), the loser leaves the
state untouched and reports not acting, the resolved promise and the one
decision record match the winner (approved or rejected for the response,
timeout for the timer), and any later handleResponse for the id returns
false without changing state. -/
theorem C3_consent_race (b b2 : Bool) :
    ((handleResponseR initReq b).2 = true ∧
     (timeoutFireR (handleResponseR initReq b).1).2 = false ∧
     (timeoutFireR (handleResponseR initReq b).1).1 = (handleResponseR initReq b).1 ∧
     interceptFinish (handleResponseR initReq b).1 =
       some ("consent_" ++ (if b then "approved" else "rejected"), b) ∧
     (handleResponseR (timeoutFireR (handleResponseR initReq b).1).1 b2).2 = false ∧
     (handleResponseR (timeoutFireR (handleResponseR initReq b).1).1 b2).1 =
       (timeoutFireR (handleResponseR initReq b).1).1) ∧
    ((timeoutFireR initReq).2 = true ∧
     (handleResponseR (timeoutFireR initReq).1 b).2 = false ∧
     (handleResponseR (timeoutFireR initReq).1 b).1 = (timeoutFireR initReq).1 ∧
     interceptFinish (timeoutFireR initReq).1 = some ("consent_timeout", false)) := by
  cases b <;> cases b2 <;> decide

/-- C4 counterexample: a failed durable write during append does not
leave the in memory state as it was before the call. -/
theorem C4_counterexample :
    ¬ ((appendWithSave cShort ⟨0⟩ initState (pfix "a1") false).1 = initState) := by
  decide

/-- C4 (amended): when the durable storage write fails, the append call
fails outright (no entry is returned), but the in memory state is not
rolled back: the unpersisted entry remains in the retained list, the tip
moves to its hash and the sequence counter is incremented, so the state
always differs from the state before the call. -/
theorem C4_failed_save_state (c : Crypto) (cfg : AuditLedgerConfig)
    (st : LedgerState) (p : AppendParams) :
    (appendWithSave c cfg st p false).2 = none ∧
    (appendWithSave c cfg st p false).1.entries =
      trimEntries cfg.maxEntries (st.entries ++ [mkEntry c st p]) ∧
    (appendWithSave c cfg st p false).1.lastHash = (mkEntry c st p).hash ∧
    (appendWithSave c cfg st p false).1.sequence = st.sequence + 1 ∧
    (appendWithSave c cfg st p false).1 ≠ st := by
  refine ⟨rfl, rfl, rfl, rfl, ?_⟩
  intro hEq
  have hseq : (appendWithSave c cfg st p false).1.sequence = st.sequence + 1 := rfl
  rw [hEq] at hseq
  omega

/-- C5: with maxEntries K positive and more than K appends from a fresh
ledger, exactly K entries are retained, they are the final segment of
the untrimmed run (so the oldest entries were evicted first and the
survivors keep their sequence numbers and hashes unchanged), the chain
tip (lastHash and the sequence counter) matches the untrimmed run, the
entries returned by the append calls are identical to the untrimmed run,
and the oldest retained entry is the (total minus K plus one)-th
appended entry. -/
theorem C5_retention_trim (c : Crypto) (K : Nat) (ps : List AppendParams)
    (hK : 0 < K) (hN : K < ps.length) :
    (appendAll c ⟨K⟩ initState ps).1.entries =
      ((appendAll c ⟨0⟩ initState ps).1.entries).drop (ps.length - K) ∧
    (appendAll c ⟨K⟩ initState ps).1.entries.length = K ∧
    (appendAll c ⟨K⟩ initState ps).1.lastHash = (appendAll c ⟨0⟩ initState ps).1.lastHash ∧
    (appendAll c ⟨K⟩ initState ps).1.sequence = (appendAll c ⟨0⟩ initState ps).1.sequence ∧
    (appendAll c ⟨K⟩ initState ps).2 = (appendAll c ⟨0⟩ initState ps).2 ∧
    (appendAll c ⟨K⟩ initState ps).1.entries.head? =
      ((appendAll c ⟨K⟩ initState ps).2).get? (ps.length - K) := by
  have hrel := appendAll_trim_rel c K ps initState initState rfl rfl
    (by simp [trimEntries, initState])
  have hEnt : (appendAll c ⟨0⟩ initState ps).1.entries = (appendAll c ⟨0⟩ initState ps).2 := by
    simpa [initState] using appendAll_cfg0_entries c ps initState
  have hLen : (appendAll c ⟨0⟩ initState ps).1.entries.length = ps.length := by
    rw [hEnt]
    exact appendAll_count c ⟨0⟩ ps initState
  have hEntK : (appendAll c ⟨K⟩ initState ps).1.entries =
      ((appendAll c ⟨0⟩ initState ps).1.entries).drop (ps.length - K) := by
    rw [hrel.2.2.1]
    unfold trimEntries
    rw [if_pos ⟨hK, by rw [hLen]; exact hN⟩, hLen]
  refine ⟨hEntK, ?_, hrel.1, hrel.2.1, hrel.2.2.2, ?_⟩
  · rw [hEntK]
    simp only [List.length_drop, hLen]
    omega
  · rw [hEntK, hrel.2.2.2, ← hEnt, List.head?_drop]
    exact (List.get?_eq_getElem? _ _).symm

/-- C5 witness: two appends with maxEntries one retain exactly the
second appended entry. -/
theorem C5_witness :
    (appendAll cShort ⟨1⟩ initState [pfix "a1", pfix "a2"]).1.entries.length = 1 ∧
    (appendAll cShort ⟨1⟩ initState [pfix "a1", pfix "a2"]).1.entries.head? =
      ((appendAll cShort ⟨1⟩ initState [pfix "a1", pfix "a2"]).2).get? 1 := by
  have h := C5_retention_trim cShort 1 [pfix "a1", pfix "a2"] (by decide) (by decide)
  exact ⟨h.2.1, h.2.2.2.2.2⟩

/-- C6: for every fresh ledger, any configuration (any maxEntries, so
with or without earlier trimming) and any inputs, the sequence numbers
of the entries returned by the first N append calls are exactly
1, 2, ..., N in call order. -/
theorem C6_sequence_numbers (c : Crypto) (cfg : AuditLedgerConfig)
    (ps : List AppendParams) :
    (appendAll c cfg initState ps).2.map (fun e => e.sequence) =
      List.range' 1 ps.length := by
  simpa [initState] using appendAll_seqs c cfg ps initState

/-- C7: requiresConsent evaluates with fixed precedence: a name on the
never require list yields false even when it is also on the always
require list; otherwise a name on the always require list yields true;
otherwise the result is the comparison of the classified risk against
the threshold under the total order none, low, medium, high, critical,
which RISK_ORDER realises strictly monotonically. -/
theorem C7_requiresConsent_precedence (cfg : ConsentGateConfig) (name : String) :
    (cfg.neverRequire.contains name = true → requiresConsent cfg name = false) ∧
    (cfg.neverRequire.contains name = false → cfg.alwaysRequire.contains name = true →
      requiresConsent cfg name = true) ∧
    (cfg.neverRequire.contains name = false → cfg.alwaysRequire.contains name = false →
      requiresConsent cfg name =
        decide (RISK_ORDER cfg.riskThreshold ≤ RISK_ORDER (classifyRisk name))) ∧
    (RISK_ORDER RiskLevel.none < RISK_ORDER RiskLevel.low ∧
     RISK_ORDER RiskLevel.low < RISK_ORDER RiskLevel.medium ∧
     RISK_ORDER RiskLevel.medium < RISK_ORDER RiskLevel.high ∧
     RISK_ORDER RiskLevel.high < RISK_ORDER RiskLevel.critical) := by
  refine ⟨?_, ?_, ?_, by decide⟩
  · intro h1
    simp only [requiresConsent, h1]
    simp
  · intro h1 h2
    simp only [requiresConsent, h1, h2]
    simp
  · intro h1 h2
    simp only [requiresConsent, h1, h2]
    simp

/-- C7 witness: the exact tie — a name on both lists — resolves to
never require wins. -/
theorem C7_witness : requiresConsent cfgTie "mytool" = false :=
  (C7_requiresConsent_precedence cfgTie "mytool").1 (by decide)

/-- C8: classifyRisk is the exact lookup in the single ordered risk
table when the name is a key; otherwise the level of the first table
entry in declared order whose key occurs inside the lowercased name;
otherwise low.  Concretely, run_shell_command classifies critical and
unlisted_tool_xyz classifies low. -/
theorem C8_classify_algorithm (name : String) :
    (∀ kv, TOOL_RISK_MAP.find? (fun kv2 => kv2.1 == name) = some kv →
      classifyRisk name = kv.2) ∧
    (TOOL_RISK_MAP.find? (fun kv2 => kv2.1 == name) = none →
      ∀ kv, TOOL_RISK_MAP.find? (fun kv2 => strIncludes (lowerStr name) kv2.1) = some kv →
        classifyRisk name = kv.2) ∧
    (TOOL_RISK_MAP.find? (fun kv2 => kv2.1 == name) = none →
      TOOL_RISK_MAP.find? (fun kv2 => strIncludes (lowerStr name) kv2.1) = none →
      classifyRisk name = RiskLevel.low) ∧
    classifyRisk "run_shell_command" = RiskLevel.critical ∧
    classifyRisk "unlisted_tool_xyz" = RiskLevel.low := by
  refine ⟨?_, ?_, ?_, by decide, by decide⟩
  · intro kv h
    simp [classifyRisk, h]
  · intro h1 kv h2
    simp [classifyRisk, h1, h2]
  · intro h1 h2
    simp [classifyRisk, h1, h2]

/-- C8 witness: an exact table hit and a substring only hit. -/
theorem C8_witness :
    classifyRisk "fs_write" = RiskLevel.high ∧
    classifyRisk "myExecutor" = RiskLevel.critical := by
  have h1 := (C8_classify_algorithm "fs_write").1 ("fs_write", RiskLevel.high) (by decide)
  have h2 := (C8_classify_algorithm "myExecutor").2.1 (by decide)
    ("exec", RiskLevel.critical) (by decide)
  exact ⟨h1, h2⟩

/-- C9 counterexample: the genesis sentinel has exactly the sixty four
characters of a hex encoded SHA-256 digest — its length does not differ
from the real digests used for entry hashes. -/
theorem C9_counterexample : GENESIS_HASH.length = sha256HexLength := by
  decide

/-- C9 (amended): the genesis sentinel is the string of sixty four zero
characters — the same length as the hex SHA-256 digests used everywhere
else; it is distinguished from real digests only by its fixed value and
exact string comparison, not by length. -/
theorem C9_genesis_sentinel :
    GENESIS_HASH = String.mk (List.replicate 64 '0') ∧
    GENESIS_HASH.length = sha256HexLength := by
  exact ⟨by decide, by decide⟩

/-- C10: getRecent with n = 0 returns all retained entries (a JS slice
from negative zero is a slice from zero), while for n at least one it
returns the last min n count retained entries, a final segment of the
retained list in chain order. -/
theorem C10_getRecent (st : LedgerState) :
    getRecent st 0 = st.entries ∧
    (∀ n, 1 ≤ n →
      getRecent st n = st.entries.drop (st.entries.length - n) ∧
      (getRecent st n).length = min n st.entries.length ∧
      st.entries.take (st.entries.length - n) ++ getRecent st n = st.entries) := by
  constructor
  · rfl
  · intro n hn
    have hne : ¬ (n = 0) := by omega
    refine ⟨?_, ?_, ?_⟩
    · simp [getRecent, jsSliceLast, hne]
    · simp only [getRecent, jsSliceLast, if_neg hne, List.length_drop]
      omega
    · simp [getRecent, jsSliceLast, hne, List.take_append_drop]

/-- C10 witness: on a concrete three entry ledger, n = 0 yields all
three entries and n = 2 yields the last two. -/
theorem C10_witness :
    getRecent (appendAll cShort ⟨0⟩ initState psEx3).1 0 =
      (appendAll cShort ⟨0⟩ initState psEx3).1.entries ∧
    (getRecent (appendAll cShort ⟨0⟩ initState psEx3).1 2).length =
      min 2 (appendAll cShort ⟨0⟩ initState psEx3).1.entries.length := by
  have h := C10_getRecent (appendAll cShort ⟨0⟩ initState psEx3).1
  exact ⟨h.1, (h.2 2 (by decide)).2.1⟩

end AirTrust
